import Mathlib

/-!
Shallow embedding of the moving-block-bootstrap / Monte-Carlo / Newton-Raphson
portfolio pipeline of `src/deadline/mbb/functions_optimized.c` and
`src/deadline/texto_trabalho_cribari/codes/functions_optimized.c` (the two
files are identical except that the cribari variant of
`monte_carlo_simulation` also stores the full price paths).

C `double` values are modelled as exact reals (`ℝ`).  `rand()` is modelled as
an ambient stream `s : ℕ → ℕ` of generator outputs, so `random_int(m)` at the
`k`-th draw is `s k % m`, mirroring `rand() % max_val`.  Heap allocation is
assumed to succeed (the C allocation-failure branches return NULL and are
unreachable in the model) and the `printf` diagnostics are not modelled.
-/

noncomputable section

/-- The per-call update of the file-local `static int seed_set` flag
(`functions_optimized.c` lines 31-36 in both files): the flag is raised only
when `seed > 0` and it is still clear. -/
def seed_update (seed_set : Bool) (seed : ℤ) : Bool :=
  if 0 < seed ∧ seed_set = false then true else seed_set

/-- Whether a call arriving with flag `seed_set` and argument `seed` actually
calls `srand` (lines 33-35). -/
def does_seed (seed_set : Bool) (seed : ℤ) : Bool :=
  decide (0 < seed) && !seed_set

/-- The did-`srand` flags of a sequence of calls, from a given flag state. -/
def seedTraceAux : Bool → List ℤ → List Bool
  | _, [] => []
  | st, x :: xs => does_seed st x :: seedTraceAux (seed_update st x) xs

/-- The did-`srand` flags of all calls of one process: the `static` flag
starts clear at process start. -/
def seed_trace (seeds : List ℤ) : List Bool := seedTraceAux false seeds

/-- The one failure of `moving_block_bootstrap` reachable in the model: the
`n_returns < block_size` validation (lines 38-41).  The C function signals it
by printing and returning NULL; the allocation-failure NULL (lines 46-49) is
unreachable here because allocation is modelled as always succeeding. -/
inductive MbbError where
  | invalidInput

/-- The block-copying `while` loop building one bootstrap row (lines 55-65):
at each pass one block start `s k % nBlocks` is drawn and
`min blockSize remaining` elements are copied.  `fuel` only cuts off the
non-terminating `blockSize = 0` case; for `blockSize ≥ 1` a fuel of
`sample_size` is never exhausted and the model matches the C loop exactly.
Returns the row together with the next draw counter. -/
def mbbRowAux (lr : List ℝ) (nBlocks blockSize : ℕ) (s : ℕ → ℕ) :
    ℕ → ℕ → ℕ → List ℝ × ℕ
  | 0, _, k => ([], k)
  | _ + 1, 0, k => ([], k)
  | fuel + 1, m + 1, k =>
    let start := s k % nBlocks
    let r := mbbRowAux lr nBlocks blockSize s fuel (m + 1 - min blockSize (m + 1)) (k + 1)
    ((lr.drop start).take (min blockSize (m + 1)) ++ r.1, r.2)

/-- The outer `for` loop over bootstrap rows (lines 52-66), threading the
draw counter through the rows. -/
def mbbRows (lr : List ℝ) (nBlocks blockSize sampleSize : ℕ) (s : ℕ → ℕ) :
    ℕ → ℕ → List (List ℝ)
  | 0, _ => []
  | b + 1, k =>
    let r := mbbRowAux lr nBlocks blockSize s sampleSize sampleSize k
    r.1 :: mbbRows lr nBlocks blockSize sampleSize s b r.2

/-- `moving_block_bootstrap` (lines 28-69) minus its seeding side effect,
which is modelled separately (`seed_update`, `does_seed`, `mbbCall`): the
validation `n_returns < block_size` fails with InvalidInput, otherwise
`n_blocks = n_returns - block_size + 1` and `n_bootstrap` rows of
`sample_size` entries are generated.  `n_returns` is the length of `lr`. -/
def moving_block_bootstrap (lr : List ℝ) (n_bootstrap sample_size block_size : ℕ)
    (s : ℕ → ℕ) : Except MbbError (List (List ℝ)) :=
  if lr.length < block_size then .error .invalidInput
  else .ok (mbbRows lr (lr.length - block_size + 1) block_size sample_size s n_bootstrap 0)

/-- One call to `moving_block_bootstrap` together with its effect on the
process-wide seeding state: (new flag, whether `srand` ran, result).  In the
source the `srand` decision (lines 31-36) precedes the input validation
(lines 38-41), so flag and did-seed component do not depend on validity. -/
def mbbCall (seed_set : Bool) (seed : ℤ) (lr : List ℝ)
    (n_bootstrap sample_size block_size : ℕ) (s : ℕ → ℕ) :
    Bool × Bool × Except MbbError (List (List ℝ)) :=
  (seed_update seed_set seed, does_seed seed_set seed,
    moving_block_bootstrap lr n_bootstrap sample_size block_size s)

/-- One simulated terminal price: `current_price` starts at `S0` and is
multiplied by `exp(log_return)` over the selected bootstrap row (mbb file
lines 91-103, cribari file lines 94-114). -/
def finalOf (S0 : ℝ) (rtns : List ℝ) : ℝ :=
  rtns.foldl (fun p r => p * Real.exp r) S0

/-- The final contents of one stored price path in the cribari variant (lines
100-110): slot `t` holds the running price after step `t`.  The `S0` stored
into slot 0 by line 101 is overwritten by the `t = 0` store of line 109. -/
def pathOf (S0 : ℝ) (rtns : List ℝ) : List ℝ :=
  (rtns.scanl (fun p r => p * Real.exp r) S0).tail

/-- The chronological write log of one path region in the cribari variant:
first `S0` into slot 0 (line 101), then the price after step `t` into slot
`t` (line 109), for `t = 0, …`. -/
def pathWrites (S0 : ℝ) (rtns : List ℝ) : List (ℕ × ℝ) :=
  (0, S0) :: (List.range rtns.length).zip (pathOf S0 rtns)

namespace MBB

/-- `monte_carlo_simulation` of `src/deadline/mbb/functions_optimized.c`
(lines 75-107): only terminal prices are produced.  Iteration `iter` selects
bootstrap row `s iter % n_bootstrap` (`random_int(n_bootstrap)`, line 95) and
compounds its `sample_size` entries. -/
def monte_carlo_simulation (S0 : ℝ) (bootstrap_samples : List (List ℝ))
    (n_bootstrap sample_size iterations : ℕ) (s : ℕ → ℕ) : List ℝ :=
  (List.range iterations).map fun iter =>
    ((bootstrap_samples.getD (s iter % n_bootstrap) []).take sample_size).foldl
      (fun p r => p * Real.exp r) S0

/-- `calculate_portfolio_returns` (lines 112-129): one weighted sum per
simulation row of the arrival-value matrix. -/
def calculate_portfolio_returns (weights : List ℝ)
    (arrival_values : List (List ℝ)) : List ℝ :=
  arrival_values.map fun row => (List.zipWith (fun w a => w * a) weights row).sum

/-- `calculate_sharpe_ratio` (lines 134-151): population mean and variance;
0 for fewer than two values and for zero standard deviation. -/
def calculate_sharpe_ratio (portfolio_values : List ℝ) (risk_free_rate : ℝ) : ℝ :=
  if portfolio_values.length ≤ 1 then 0
  else
    let n : ℝ := portfolio_values.length
    let mean := portfolio_values.sum / n
    let variance := (portfolio_values.map fun x => x * x).sum / n - mean * mean
    let std_dev := Real.sqrt variance
    if std_dev = 0 then 0 else (mean - risk_free_rate) / std_dev

/-- `negative_sharpe_ratio` (lines 157-167); the allocation-failure sentinel
`1e6` is unreachable in the model. -/
def negative_sharpe_ratio (weights : List ℝ) (arrival_values : List (List ℝ))
    (risk_free_rate : ℝ) : ℝ :=
  -(calculate_sharpe_ratio (calculate_portfolio_returns weights arrival_values)
      risk_free_rate)

/-- The finite-difference step `h = 1e-6` (line 199). -/
def fd_h : ℝ := 1 / 1000000

/-- `weights` with entry `i` shifted by `d`: the `weights[i] += h` probes of
lines 207-215 (the restore `+h, -2h, +h` is exact in `ℝ`). -/
def perturb (w : List ℝ) (i : ℕ) (d : ℝ) : List ℝ :=
  w.set i (w.getD i 0 + d)

/-- The central-difference gradient (lines 202-218). -/
def gradientAt (f : List ℝ → ℝ) (w : List ℝ) : List ℝ :=
  (List.range w.length).map fun i =>
    (f (perturb w i fd_h) - f (perturb w i (-fd_h))) / (2 * fd_h)

/-- The diagonal Hessian entries with the `1e-6` regularization (lines
220-227); the off-diagonal entries are zeroed (lines 230-234) and unused. -/
def hessianDiagAt (f : List ℝ → ℝ) (w : List ℝ) : List ℝ :=
  (List.range w.length).map fun i =>
    (f (perturb w i fd_h) + f (perturb w i (-fd_h)) - 2 * f w) / (fd_h * fd_h)
      + 1 / 1000000

/-- The Newton step `delta[i] = -gradient[i] / hessian[i][i]` (lines 246-249). -/
def deltaAt (f : List ℝ → ℝ) (w : List ℝ) : List ℝ :=
  List.zipWith (fun g hd => -g / hd) (gradientAt f w) (hessianDiagAt f w)

/-- The simplex projection inside the line search (lines 263-274): clamp each
weight to `≥ 0` (`fmax`), then divide by the clamped sum when it is positive
(the division is skipped when the sum is not positive). -/
def project (w : List ℝ) : List ℝ :=
  let clamped := w.map fun x => max x 0
  if 0 < clamped.sum then clamped.map fun x => x / clamped.sum else clamped

/-- One line-search attempt (lines 258-274): add `alpha * delta[i]` to the
current — not rolled back — weights, then project. -/
def lsStep (delta : List ℝ) (alpha : ℝ) (w : List ℝ) : List ℝ :=
  project (List.zipWith (fun wi di => wi + alpha * di) w delta)

/-- The backtracking line search (lines 251-285): up to 10 attempts; accept on
strict decrease below `f_current` (line 278 `break`); otherwise halve `alpha`
and retry from the already-updated weights.  The Bool records whether some
attempt was accepted. -/
def lineSearch (f : List ℝ → ℝ) (f_current : ℝ) (delta : List ℝ) :
    ℕ → ℝ → List ℝ → List ℝ × Bool
  | 0, _, w => (w, false)
  | fuel + 1, alpha, w =>
    if f (lsStep delta alpha w) < f_current then (lsStep delta alpha w, true)
    else lineSearch f f_current delta fuel (alpha / 2) (lsStep delta alpha w)

/-- One round of the optimizer loop (lines 186-304): gradient, diagonal
Hessian, Newton step, line search (with `f_current = f w`, line 253, and
`alpha = 1`, line 252), and the gradient norm of the convergence test (lines
288-292).  Result: (new weights, was a step accepted, gradient norm). -/
def nrRound (f : List ℝ → ℝ) (w : List ℝ) : List ℝ × Bool × ℝ :=
  let r := lineSearch f (f w) (deltaAt f w) 10 1 w
  (r.1, r.2, Real.sqrt ((gradientAt f w).map fun g => g * g).sum)

/-- The optimizer's outer iteration: up to `max_iterations` rounds, stopping
early when `grad_norm < tolerance` (line 294 `break`). -/
def optimizeGo (f : List ℝ → ℝ) (tolerance : ℝ) : ℕ → List ℝ → List ℝ
  | 0, w => w
  | n + 1, w =>
    let r := nrRound f w
    if r.2.2 < tolerance then r.1 else optimizeGo f tolerance n r.1

/-- `optimize_portfolio_newton_raphson` (lines 173-307): the initial weights
are copied unchanged (lines 181-183) and evolved by the rounds. -/
def optimize_portfolio_newton_raphson (arrival_values : List (List ℝ))
    (initial_weights : List ℝ) (risk_free_rate : ℝ) (max_iterations : ℕ)
    (tolerance : ℝ) : List ℝ :=
  optimizeGo (fun w => negative_sharpe_ratio w arrival_values risk_free_rate)
    tolerance max_iterations initial_weights

/-- The explicit state sequence of one round's line-search attempts:
`attemptSeq delta w0 k` is the weight vector entering attempt `k` when the
first `k` attempts all failed — each failed attempt's clamped/renormalized
update is kept, never rolled back, and `alpha` entering attempt `k` is
`1 / 2 ^ k`. -/
def attemptSeq (delta : List ℝ) (w0 : List ℝ) : ℕ → List ℝ
  | 0 => w0
  | k + 1 => lsStep delta (1 / 2 ^ k) (attemptSeq delta w0 k)

end MBB

namespace Cribari

/-- `monte_carlo_simulation` of
`src/deadline/texto_trabalho_cribari/codes/functions_optimized.c` (lines
76-117): the flat result array holds the `iterations` terminal prices first,
then the `iterations` stored price paths; modelled as the pair
(terminal prices, final path contents).  The `seed` parameter is unused, as in
the source (line 79). -/
def monte_carlo_simulation (S0 : ℝ) (bootstrap_samples : List (List ℝ))
    (n_bootstrap sample_size iterations : ℕ) (seed : ℤ) (s : ℕ → ℕ) :
    List ℝ × List (List ℝ) :=
  ((List.range iterations).map fun iter =>
      finalOf S0 ((bootstrap_samples.getD (s iter % n_bootstrap) []).take sample_size),
    (List.range iterations).map fun iter =>
      pathOf S0 ((bootstrap_samples.getD (s iter % n_bootstrap) []).take sample_size))

end Cribari

/-- The arrival-value matrix of the concrete optimizer runs studied below:
two simulations, two assets; asset 0 takes values `1, -1`, asset 1 is the
constant `-1`.  For weights `[a, b]` the portfolio values are `[a - b, -a - b]`,
with mean `-b`, variance `a^2` and standard deviation `|a|`. -/
def cexArrival : List (List ℝ) := [[1, -1], [-1, -1]]

/-- The negated Sharpe objective of that matrix at risk-free rate 0. -/
def cexF : List ℝ → ℝ := fun w => MBB.negative_sharpe_ratio w cexArrival 0

/-! ## Lemmas about the seeding state machine -/

lemma seedTraceAux_true (l : List ℤ) :
    seedTraceAux true l = l.map fun _ => false := by
  induction l with
  | nil => rfl
  | cons x xs ih => simp [seedTraceAux, does_seed, seed_update, ih]

lemma count_true_map_false (l : List ℤ) :
    ((l.map fun _ => false).count true) = 0 := by
  rw [List.count_eq_zero]
  simp

lemma getD_map_false (l : List ℤ) (i : ℕ) :
    ((l.map fun _ => false).getD i false) = false := by
  induction l generalizing i with
  | nil => rfl
  | cons x xs ih => cases i <;> simp [ih]

lemma seed_trace_count (xs : List ℤ) :
    (seedTraceAux false xs).count true ≤ 1 := by
  induction xs with
  | nil => simp [seedTraceAux]
  | cons x xs ih =>
    by_cases hx : 0 < x
    · simp [seedTraceAux, does_seed, seed_update, hx, seedTraceAux_true,
        List.count_cons, count_true_map_false, List.count_replicate]
    · simpa [seedTraceAux, does_seed, seed_update, hx, List.count_cons] using ih

lemma seed_trace_getD (xs : List ℤ) (i : ℕ) (hi : i < xs.length) :
    ((seedTraceAux false xs).getD i false = true ↔
      0 < xs.getD i 0 ∧ ∀ j, j < i → xs.getD j 0 ≤ 0) := by
  induction xs generalizing i with
  | nil => simp at hi
  | cons x xs ih =>
    cases i with
    | zero => simp [seedTraceAux, does_seed]
    | succ i =>
      simp only [List.length_cons, Nat.succ_lt_succ_iff] at hi
      by_cases hx : 0 < x
      · have hupd : seed_update false x = true := by simp [seed_update, hx]
        have hfalse : (seedTraceAux (seed_update false x) xs).getD i false = false := by
          rw [hupd, seedTraceAux_true, getD_map_false]
        constructor
        · intro habs
          rw [show (seedTraceAux false (x :: xs)).getD (i + 1) false =
              (seedTraceAux (seed_update false x) xs).getD i false from rfl] at habs
          rw [hfalse] at habs
          exact absurd habs (by simp)
        · rintro ⟨-, hall⟩
          have := hall 0 (Nat.succ_pos i)
          simp only [List.getD_cons_zero] at this
          omega
      · have hupd : seed_update false x = false := by simp [seed_update, hx]
        have hstep : (seedTraceAux false (x :: xs)).getD (i + 1) false =
            (seedTraceAux false xs).getD i false := by
          show (seedTraceAux (seed_update false x) xs).getD i false = _
          rw [hupd]
        rw [hstep, ih i hi]
        simp only [List.getD_cons_succ]
        constructor
        · rintro ⟨hpos, hall⟩
          refine ⟨hpos, fun j hj => ?_⟩
          cases j with
          | zero => simpa using le_of_not_lt hx
          | succ j => simpa using hall j (by omega)
        · rintro ⟨hpos, hall⟩
          exact ⟨hpos, fun j hj => by simpa using hall (j + 1) (by omega)⟩

/-! ## Claim theorems C6, C7, C9 -/

/-- Claim C6: for every input with `block_size > n_returns`,
`moving_block_bootstrap` fails with the InvalidInput error and produces no
bootstrap sample set. -/
theorem C6_invalid_input (lr : List ℝ) (n_bootstrap sample_size block_size : ℕ)
    (s : ℕ → ℕ) (h : lr.length < block_size) :
    moving_block_bootstrap lr n_bootstrap sample_size block_size s =
      .error .invalidInput := by
  simp [moving_block_bootstrap, h]

theorem C6_witness :
    ([(1 : ℝ), 2, 3].length < 5) ∧
      moving_block_bootstrap [(1 : ℝ), 2, 3] 4 6 5 (fun _ => 0) =
        .error .invalidInput :=
  ⟨by simp, C6_invalid_input [(1 : ℝ), 2, 3] 4 6 5 (fun _ => 0) (by simp)⟩

/-- Claim C7: across the calls of one process the generator is seeded at most
once, and call `i` seeds exactly when its seed argument is positive and every
earlier call's seed argument was nonpositive (so the first positive-seed call
seeds, later calls never re-seed, and nonpositive seeds never seed). -/
theorem C7_seed_once (seeds : List ℤ) (i : ℕ) (hi : i < seeds.length) :
    (seed_trace seeds).count true ≤ 1 ∧
      ((seed_trace seeds).getD i false = true ↔
        0 < seeds.getD i 0 ∧ ∀ j, j < i → seeds.getD j 0 ≤ 0) :=
  ⟨seed_trace_count seeds, seed_trace_getD seeds i hi⟩

theorem C7_witness :
    (seed_trace [0, 5, 7]).count true ≤ 1 ∧
      ((seed_trace [0, 5, 7]).getD 1 false = true ↔
        0 < ([0, 5, 7] : List ℤ).getD 1 0 ∧
          ∀ j, j < 1 → ([0, 5, 7] : List ℤ).getD j 0 ≤ 0) :=
  C7_seed_once [0, 5, 7] 1 (by simp)

/-- Claim C9: a first call with a positive seed performs the one-time seeding
before input validation, so even a call failing the `n_returns >= block_size`
check (and returning no output) raises the process-wide flag, and any later
call — whatever its positive seed — no longer seeds. -/
theorem C9_seed_before_validation (seed : ℤ) (lr : List ℝ)
    (n_bootstrap sample_size block_size : ℕ) (s : ℕ → ℕ)
    (hseed : 0 < seed) (hlen : lr.length < block_size) :
    (mbbCall false seed lr n_bootstrap sample_size block_size s).1 = true ∧
      (mbbCall false seed lr n_bootstrap sample_size block_size s).2.1 = true ∧
      (mbbCall false seed lr n_bootstrap sample_size block_size s).2.2 =
        .error .invalidInput ∧
      ∀ (seed2 : ℤ) (lr2 : List ℝ) (nb2 ss2 bs2 : ℕ) (s2 : ℕ → ℕ),
        (mbbCall (mbbCall false seed lr n_bootstrap sample_size block_size s).1
          seed2 lr2 nb2 ss2 bs2 s2).2.1 = false := by
  refine ⟨?_, ?_, ?_, ?_⟩ <;>
    simp [mbbCall, seed_update, does_seed, moving_block_bootstrap, hseed, hlen]

theorem C9_witness :
    ((0 : ℤ) < 7) ∧ ([(1 : ℝ), 2, 3].length < 5) ∧
      ((mbbCall false 7 [(1 : ℝ), 2, 3] 4 6 5 (fun _ => 0)).1 = true ∧
        (mbbCall false 7 [(1 : ℝ), 2, 3] 4 6 5 (fun _ => 0)).2.1 = true ∧
        (mbbCall false 7 [(1 : ℝ), 2, 3] 4 6 5 (fun _ => 0)).2.2 =
          .error .invalidInput ∧
        ∀ (seed2 : ℤ) (lr2 : List ℝ) (nb2 ss2 bs2 : ℕ) (s2 : ℕ → ℕ),
          (mbbCall (mbbCall false 7 [(1 : ℝ), 2, 3] 4 6 5 (fun _ => 0)).1
            seed2 lr2 nb2 ss2 bs2 s2).2.1 = false) :=
  ⟨by norm_num, by simp,
    C9_seed_before_validation 7 [(1 : ℝ), 2, 3] 4 6 5 (fun _ => 0)
      (by norm_num) (by simp)⟩

/-! ## Lemmas about the bootstrap row construction -/

lemma mbbRowAux_zero (lr : List ℝ) (nB bs : ℕ) (s : ℕ → ℕ) (fuel k : ℕ) :
    mbbRowAux lr nB bs s fuel 0 k = ([], k) := by cases fuel <;> rfl

lemma mbbRowAux_succ (lr : List ℝ) (nB bs : ℕ) (s : ℕ → ℕ) (fuel m k : ℕ) :
    mbbRowAux lr nB bs s (fuel + 1) (m + 1) k =
      ((lr.drop (s k % nB)).take (min bs (m + 1)) ++
        (mbbRowAux lr nB bs s fuel (m + 1 - min bs (m + 1)) (k + 1)).1,
       (mbbRowAux lr nB bs s fuel (m + 1 - min bs (m + 1)) (k + 1)).2) := rfl

lemma block_start_le (lr : List ℝ) (bs : ℕ) (hbs : 1 ≤ bs) (hlen : bs ≤ lr.length)
    (v : ℕ) : v % (lr.length - bs + 1) + bs ≤ lr.length := by
  have := Nat.mod_lt v (show 0 < lr.length - bs + 1 by omega)
  omega

lemma mbbRowAux_length (lr : List ℝ) (bs : ℕ) (s : ℕ → ℕ)
    (hbs : 1 ≤ bs) (hlen : bs ≤ lr.length) :
    ∀ fuel m k, m ≤ fuel →
      ((mbbRowAux lr (lr.length - bs + 1) bs s fuel m k).1).length = m := by
  intro fuel
  induction fuel with
  | zero =>
    intro m k hm
    have hm0 : m = 0 := by omega
    subst hm0
    rfl
  | succ fuel ih =>
    intro m k hm
    cases m with
    | zero => rfl
    | succ m =>
      have hst := block_start_le lr bs hbs hlen (s k)
      rw [mbbRowAux_succ]
      simp only [List.length_append, List.length_take, List.length_drop]
      rw [ih (m + 1 - min bs (m + 1)) (k + 1) (by omega)]
      omega

lemma mbbRowAux_structure (lr : List ℝ) (bs : ℕ) (s : ℕ → ℕ)
    (hbs : 1 ≤ bs) (hlen : bs ≤ lr.length) :
    ∀ fuel m k, m ≤ fuel →
      ∃ starts : List ℕ,
        (∀ st ∈ starts, st + bs ≤ lr.length) ∧
        (mbbRowAux lr (lr.length - bs + 1) bs s fuel m k).1 =
          ((starts.map fun st => (lr.drop st).take bs).flatten).take m := by
  intro fuel
  induction fuel with
  | zero =>
    intro m k hm
    have hm0 : m = 0 := by omega
    subst hm0
    exact ⟨[], by simp, by simp [mbbRowAux_zero]⟩
  | succ fuel ih =>
    intro m k hm
    cases m with
    | zero => exact ⟨[], by simp, by simp [mbbRowAux_zero]⟩
    | succ m =>
      have hst := block_start_le lr bs hbs hlen (s k)
      obtain ⟨starts, hin, heq⟩ := ih (m + 1 - min bs (m + 1)) (k + 1) (by omega)
      refine ⟨s k % (lr.length - bs + 1) :: starts, ?_, ?_⟩
      · intro st hmem
        rcases List.mem_cons.mp hmem with h | h
        · omega
        · exact hin st h
      · rw [mbbRowAux_succ]
        simp only [List.map_cons, List.flatten_cons]
        have hblen : ((lr.drop (s k % (lr.length - bs + 1))).take bs).length = bs := by
          simp only [List.length_take, List.length_drop]
          omega
        rcases le_or_lt bs (m + 1) with hle | hlt
        · have hmin : min bs (m + 1) = bs := by omega
          rw [hmin] at heq
          have hble : ((lr.drop (s k % (lr.length - bs + 1))).take bs).length ≤ m + 1 := by
            rw [hblen]; exact hle
          rw [hmin, heq, List.take_append_eq_append_take, hblen,
            List.take_of_length_le hble]
        · have hmin : min bs (m + 1) = m + 1 := by omega
          rw [hmin, show m + 1 - (m + 1) = 0 from by omega, mbbRowAux_zero]
          simp only [List.take_zero, List.append_nil]
          rw [List.take_append_eq_append_take, hblen,
            show m + 1 - bs = 0 from by omega]
          simp only [List.take_zero, List.append_nil]
          rw [List.take_take, show min (m + 1) bs = m + 1 from by omega]

lemma mbbRows_mem (lr : List ℝ) (nB bs ss : ℕ) (s : ℕ → ℕ) :
    ∀ b k row, row ∈ mbbRows lr nB bs ss s b k →
      ∃ k0, row = (mbbRowAux lr nB bs s ss ss k0).1 := by
  intro b
  induction b with
  | zero =>
    intro k row h
    simp [mbbRows] at h
  | succ b ih =>
    intro k row h
    rw [show mbbRows lr nB bs ss s (b + 1) k =
        (mbbRowAux lr nB bs s ss ss k).1 ::
          mbbRows lr nB bs ss s b ((mbbRowAux lr nB bs s ss ss k).2) from rfl] at h
    rcases List.mem_cons.mp h with h | h
    · exact ⟨k, h⟩
    · exact ih _ row h

/-- Claim C5: whenever `n_returns ≥ block_size` (and `block_size ≥ 1`, without
which the C copying loop would never terminate), every row of the returned
bootstrap sample set has exactly `sample_size` elements, every element of
every row is an element `log_returns[j]`, `j < n_returns`, of the input
series, and every row is a concatenation of contiguous blocks of the series —
each starting at an index with `start + block_size ≤ n_returns`, i.e. in
`[0, n_returns - block_size]` — truncated to `sample_size` elements. -/
theorem C5_row_structure (lr : List ℝ) (n_bootstrap sample_size block_size : ℕ)
    (s : ℕ → ℕ) (rows : List (List ℝ))
    (hbs : 1 ≤ block_size) (hlen : block_size ≤ lr.length)
    (hok : moving_block_bootstrap lr n_bootstrap sample_size block_size s = .ok rows) :
    ∀ row ∈ rows,
      row.length = sample_size ∧
      (∀ x ∈ row, ∃ j, j < lr.length ∧ lr.getD j 0 = x) ∧
      ∃ starts : List ℕ,
        (∀ st ∈ starts, st + block_size ≤ lr.length) ∧
        row = ((starts.map fun st => (lr.drop st).take block_size).flatten).take
          sample_size := by
  simp only [moving_block_bootstrap, if_neg (not_lt.mpr hlen), Except.ok.injEq] at hok
  subst hok
  intro row hrow
  obtain ⟨k0, hk0⟩ := mbbRows_mem lr (lr.length - block_size + 1) block_size
    sample_size s n_bootstrap 0 row hrow
  subst hk0
  obtain ⟨starts, hin, heq⟩ := mbbRowAux_structure lr block_size s hbs hlen
    sample_size sample_size k0 le_rfl
  refine ⟨mbbRowAux_length lr block_size s hbs hlen sample_size sample_size k0 le_rfl,
    ?_, starts, hin, heq⟩
  intro x hx
  rw [heq] at hx
  have hx2 : x ∈ (starts.map fun st => (lr.drop st).take block_size).flatten :=
    List.mem_of_mem_take hx
  obtain ⟨bl, hbl, hxbl⟩ := List.mem_flatten.mp hx2
  obtain ⟨st, _, rfl⟩ := List.mem_map.mp hbl
  have hxlr : x ∈ lr := List.mem_of_mem_drop (List.mem_of_mem_take hxbl)
  obtain ⟨j, hj, hget⟩ := List.mem_iff_getElem.mp hxlr
  exact ⟨j, hj, by rw [List.getD_eq_getElem lr 0 hj, hget]⟩

theorem C5_witness :
    ([(1 : ℝ), 2, 2].length = 3 ∧
      (∀ x ∈ ([(1 : ℝ), 2, 2] : List ℝ), ∃ j, j < ([(1 : ℝ), 2, 3] : List ℝ).length ∧
        ([(1 : ℝ), 2, 3] : List ℝ).getD j 0 = x) ∧
      ∃ starts : List ℕ,
        (∀ st ∈ starts, st + 2 ≤ ([(1 : ℝ), 2, 3] : List ℝ).length) ∧
        ([(1 : ℝ), 2, 2] : List ℝ) =
          ((starts.map fun st => (([(1 : ℝ), 2, 3] : List ℝ).drop st).take 2).flatten).take 3) :=
  C5_row_structure [(1 : ℝ), 2, 3] 1 3 2 (fun k => k) [[(1 : ℝ), 2, 2]]
    (by norm_num) (by simp) rfl [(1 : ℝ), 2, 2] (by simp)

/-! ## Lemmas about the simulated prices -/

lemma foldl_exp_pos (rtns : List ℝ) :
    ∀ b : ℝ, 0 < b → 0 < rtns.foldl (fun p r => p * Real.exp r) b := by
  induction rtns with
  | nil => intro b hb; simpa using hb
  | cons x xs ih =>
    intro b hb
    rw [List.foldl_cons]
    exact ih _ (mul_pos hb (Real.exp_pos x))

lemma scanl_exp_pos (rtns : List ℝ) :
    ∀ b x : ℝ, 0 < b → x ∈ rtns.scanl (fun p r => p * Real.exp r) b → 0 < x := by
  induction rtns with
  | nil =>
    intro b x hb hx
    rw [List.scanl_nil, List.mem_singleton] at hx
    exact hx ▸ hb
  | cons r rs ih =>
    intro b x hb hx
    rw [List.scanl_cons] at hx
    rcases List.mem_cons.mp hx with rfl | hx
    · exact hb
    · exact ih _ x (mul_pos hb (Real.exp_pos r)) hx

lemma getD_map_range {α : Type} (g : ℕ → α) (n i : ℕ) (d : α) (hi : i < n) :
    ((List.range n).map g).getD i d = g i := by
  have hlen : i < ((List.range n).map g).length := by simpa using hi
  rw [List.getD_eq_getElem ((List.range n).map g) d hlen, List.getElem_map,
    List.getElem_range]

lemma scanl_getLastD (f : ℝ → ℝ → ℝ) :
    ∀ (l : List ℝ) (b d : ℝ), (l.scanl f b).getLastD d = l.foldl f b := by
  intro l
  induction l with
  | nil => intro b d; rfl
  | cons x xs ih =>
    intro b d
    rw [List.scanl_cons, List.singleton_append, List.foldl_cons,
      List.getLastD_cons, ih]

lemma pathOf_getLastD (S0 d : ℝ) (rtns : List ℝ) (h : rtns ≠ []) :
    (pathOf S0 rtns).getLastD d = finalOf S0 rtns := by
  obtain ⟨x, xs, rfl⟩ := List.exists_cons_of_ne_nil h
  rw [pathOf, finalOf, List.scanl_cons, List.singleton_append, List.tail_cons,
    List.foldl_cons, scanl_getLastD]

lemma scanl_getD_zero (f : ℝ → ℝ → ℝ) (b : ℝ) (l : List ℝ) :
    (l.scanl f b).getD 0 0 = b := by cases l <;> rfl

lemma pathOf_head (S0 x : ℝ) (xs : List ℝ) :
    (pathOf S0 (x :: xs)).getD 0 0 = S0 * Real.exp x := by
  rw [pathOf, List.scanl_cons, List.singleton_append, List.tail_cons,
    scanl_getD_zero]

/-! ## Claim theorems C8, C10, C2 -/

/-- Claim C8: for strictly positive `S0` and arbitrary (exact-real)
log-returns, every simulated price is strictly positive — the terminal prices
of the mbb variant, and both the terminal prices and every stored path value
of the cribari variant. -/
theorem C8_price_positivity (S0 : ℝ) (samples : List (List ℝ))
    (n_bootstrap sample_size iterations : ℕ) (seed : ℤ) (s : ℕ → ℕ)
    (hS0 : 0 < S0) :
    (∀ x ∈ MBB.monte_carlo_simulation S0 samples n_bootstrap sample_size
        iterations s, 0 < x) ∧
    (∀ x ∈ (Cribari.monte_carlo_simulation S0 samples n_bootstrap sample_size
        iterations seed s).1, 0 < x) ∧
    (∀ p ∈ (Cribari.monte_carlo_simulation S0 samples n_bootstrap sample_size
        iterations seed s).2, ∀ x ∈ p, 0 < x) := by
  refine ⟨?_, ?_, ?_⟩
  · intro x hx
    obtain ⟨iter, -, rfl⟩ := List.mem_map.mp hx
    exact foldl_exp_pos _ S0 hS0
  · intro x hx
    obtain ⟨iter, -, rfl⟩ := List.mem_map.mp hx
    exact foldl_exp_pos _ S0 hS0
  · intro p hp x hx
    obtain ⟨iter, -, rfl⟩ := List.mem_map.mp hp
    exact scanl_exp_pos _ S0 x hS0 (List.mem_of_mem_tail hx)

theorem C8_witness : (0 : ℝ) < 1 ∧ 0 < 1 * Real.exp 0 :=
  ⟨by norm_num,
    (C8_price_positivity 1 [[0]] 1 1 1 0 (fun _ => 0) (by norm_num)).1
      (1 * Real.exp 0) (by simp [MBB.monte_carlo_simulation])⟩

/-- Claim C10: with the same inputs and the same drawn row indices, the two
`monte_carlo_simulation` variants produce identical terminal prices, and in
the path-retaining variant each stored terminal price is the last stored
element of that iteration's path (whenever `sample_size ≥ 1` and the selected
row holds `sample_size` entries, as every row of a bootstrap sample set
does). -/
theorem C10_variants_agree (S0 : ℝ) (samples : List (List ℝ))
    (n_bootstrap sample_size iterations : ℕ) (seed : ℤ) (s : ℕ → ℕ) :
    (Cribari.monte_carlo_simulation S0 samples n_bootstrap sample_size
        iterations seed s).1 =
      MBB.monte_carlo_simulation S0 samples n_bootstrap sample_size iterations s ∧
    ∀ iter, iter < iterations → 1 ≤ sample_size →
      sample_size ≤ (samples.getD (s iter % n_bootstrap) []).length →
      ((Cribari.monte_carlo_simulation S0 samples n_bootstrap sample_size
          iterations seed s).2.getD iter []).getLastD 0 =
        (Cribari.monte_carlo_simulation S0 samples n_bootstrap sample_size
          iterations seed s).1.getD iter 0 := by
  refine ⟨rfl, ?_⟩
  intro iter hiter hss hrow
  have hne : (samples.getD (s iter % n_bootstrap) []).take sample_size ≠ [] := by
    apply List.ne_nil_of_length_pos
    rw [List.length_take]
    omega
  show ((List.map _ (List.range iterations)).getD iter []).getLastD 0 =
    (List.map _ (List.range iterations)).getD iter 0
  rw [getD_map_range _ iterations iter [] hiter,
    getD_map_range _ iterations iter 0 hiter,
    pathOf_getLastD _ _ _ hne]

theorem C10_witness :
    ((Cribari.monte_carlo_simulation 2 [[0, 0]] 1 2 1 0 (fun _ => 0)).1 =
        MBB.monte_carlo_simulation 2 [[0, 0]] 1 2 1 (fun _ => 0)) ∧
      ((Cribari.monte_carlo_simulation 2 [[0, 0]] 1 2 1 0
          (fun _ => 0)).2.getD 0 []).getLastD 0 =
        (Cribari.monte_carlo_simulation 2 [[0, 0]] 1 2 1 0
          (fun _ => 0)).1.getD 0 0 :=
  ⟨(C10_variants_agree 2 [[0, 0]] 1 2 1 0 (fun _ => 0)).1,
    (C10_variants_agree 2 [[0, 0]] 1 2 1 0 (fun _ => 0)).2 0 (by norm_num)
      (by norm_num) (by simp)⟩

/-- Claim C2 is false of the code: in the path-retaining variant the value
held at path position 0 is `S0 * exp(r_0)`, the price after the first step,
not `S0` (the `S0` written there first is overwritten by the `t = 0` store).
Concretely, with `S0 = 1` and the single bootstrap row `[1]`, the first
stored value of the returned path is `exp 1 ≠ 1`. -/
theorem C2_counterexample :
    ¬ ((Cribari.monte_carlo_simulation 1 [[1]] 1 1 1 0
        (fun _ => 0)).2.getD 0 []).getD 0 0 = 1 := by
  have heval : ((Cribari.monte_carlo_simulation 1 [[1]] 1 1 1 0
      (fun _ => 0)).2.getD 0 []).getD 0 0 = Real.exp 1 := by
    simp [Cribari.monte_carlo_simulation, pathOf, List.scanl_cons, List.scanl_nil]
  rw [heval]
  intro habs
  have h := Real.exp_one_gt_d9
  rw [habs] at h
  norm_num at h

/-- Claim C2, amended: `S0` is the first value chronologically written into
the path's storage (the write log starts with `(0, S0)`), but the `t = 0`
iteration overwrites that slot, so the first stored value of the returned
path is `S0 * exp(r_0)` — the price after the first step — rather than
`S0`. -/
theorem C2_amended (S0 : ℝ) (samples : List (List ℝ))
    (n_bootstrap sample_size iterations : ℕ) (seed : ℤ) (s : ℕ → ℕ)
    (iter : ℕ) (hiter : iter < iterations)
    (hne : (samples.getD (s iter % n_bootstrap) []).take sample_size ≠ []) :
    (pathWrites S0 ((samples.getD (s iter % n_bootstrap) []).take
        sample_size)).getD 0 (0, 0) = (0, S0) ∧
    ((Cribari.monte_carlo_simulation S0 samples n_bootstrap sample_size
        iterations seed s).2.getD iter []).getD 0 0 =
      S0 * Real.exp (((samples.getD (s iter % n_bootstrap) []).take
        sample_size).getD 0 0) := by
  refine ⟨rfl, ?_⟩
  obtain ⟨x, xs, hxs⟩ := List.exists_cons_of_ne_nil hne
  show ((List.map _ (List.range iterations)).getD iter []).getD 0 0 = _
  rw [getD_map_range _ iterations iter [] hiter, hxs, pathOf_head]
  rfl

theorem C2_amended_witness :
    (pathWrites 1 ((([[1]] : List (List ℝ)).getD (0 % 1) []).take 1)).getD 0
        (0, 0) = ((0 : ℕ), (1 : ℝ)) ∧
      ((Cribari.monte_carlo_simulation 1 [[1]] 1 1 1 0
          (fun _ => 0)).2.getD 0 []).getD 0 0 =
        1 * Real.exp (((([[1]] : List (List ℝ)).getD (0 % 1) []).take 1).getD 0 0) :=
  C2_amended 1 [[1]] 1 1 1 0 (fun _ => 0) 0 (by norm_num) (by simp)

/-! ## Lemmas about the line search and the optimizer rounds -/

lemma lineSearch_zero (f : List ℝ → ℝ) (fcur : ℝ) (delta : List ℝ)
    (alpha : ℝ) (w : List ℝ) :
    MBB.lineSearch f fcur delta 0 alpha w = (w, false) := rfl

lemma lineSearch_succ (f : List ℝ → ℝ) (fcur : ℝ) (delta : List ℝ)
    (fuel : ℕ) (alpha : ℝ) (w : List ℝ) :
    MBB.lineSearch f fcur delta (fuel + 1) alpha w =
      if f (MBB.lsStep delta alpha w) < fcur then (MBB.lsStep delta alpha w, true)
      else MBB.lineSearch f fcur delta fuel (alpha / 2) (MBB.lsStep delta alpha w) :=
  rfl

lemma lineSearch_accept (f : List ℝ → ℝ) (fcur : ℝ) (delta : List ℝ) :
    ∀ (fuel : ℕ) (alpha : ℝ) (w wr : List ℝ),
      MBB.lineSearch f fcur delta fuel alpha w = (wr, true) → f wr < fcur := by
  intro fuel
  induction fuel with
  | zero =>
    intro alpha w wr h
    rw [lineSearch_zero] at h
    exact absurd (congrArg Prod.snd h) (by simp)
  | succ fuel ih =>
    intro alpha w wr h
    rw [lineSearch_succ] at h
    by_cases hc : f (MBB.lsStep delta alpha w) < fcur
    · rw [if_pos hc] at h
      have := congrArg Prod.fst h
      simp only at this
      exact this ▸ hc
    · rw [if_neg hc] at h
      exact ih _ _ _ h

/-- Claim C3: when some backtracking attempt of a round is accepted (which
requires a strict decrease of the objective), the negated-Sharpe value at the
weights held after the round is ≤ (indeed <) its value at the weights the
round started from; only on ten failed attempts can the kept weights be
worse. -/
theorem C3_accepted_round_improves (arrival_values : List (List ℝ))
    (risk_free_rate : ℝ) (w : List ℝ)
    (haccept : (MBB.nrRound
        (fun v => MBB.negative_sharpe_ratio v arrival_values risk_free_rate)
        w).2.1 = true) :
    MBB.negative_sharpe_ratio
        ((MBB.nrRound
          (fun v => MBB.negative_sharpe_ratio v arrival_values risk_free_rate)
          w).1)
        arrival_values risk_free_rate ≤
      MBB.negative_sharpe_ratio w arrival_values risk_free_rate := by
  have hr : MBB.lineSearch
      (fun v => MBB.negative_sharpe_ratio v arrival_values risk_free_rate)
      (MBB.negative_sharpe_ratio w arrival_values risk_free_rate)
      (MBB.deltaAt
        (fun v => MBB.negative_sharpe_ratio v arrival_values risk_free_rate) w)
      10 1 w =
      ((MBB.lineSearch
        (fun v => MBB.negative_sharpe_ratio v arrival_values risk_free_rate)
        (MBB.negative_sharpe_ratio w arrival_values risk_free_rate)
        (MBB.deltaAt
          (fun v => MBB.negative_sharpe_ratio v arrival_values risk_free_rate) w)
        10 1 w).1, true) := by
    rw [← haccept]
    exact Prod.mk.eta.symm
  exact le_of_lt (lineSearch_accept _ _ _ 10 1 w _ hr)

/-- Claim C4: within one round's backtracking line search, as long as the
first `k` attempts all failed, the search continues from the cumulatively
updated weights `attemptSeq delta w0 k` with `alpha = 1 / 2 ^ k` and
`10 - k` attempts left — failed attempts are never rolled back — and the next
tried vector applies `alpha * delta` to those already-modified weights,
clamped and renormalized. -/
theorem C4_cumulative_backtracking (arrival_values : List (List ℝ))
    (risk_free_rate : ℝ) (delta w0 : List ℝ) (k : ℕ) (hk : k ≤ 10)
    (hfail : ∀ j, j < k →
      ¬ MBB.negative_sharpe_ratio (MBB.attemptSeq delta w0 (j + 1))
          arrival_values risk_free_rate <
        MBB.negative_sharpe_ratio w0 arrival_values risk_free_rate) :
    MBB.lineSearch
        (fun v => MBB.negative_sharpe_ratio v arrival_values risk_free_rate)
        (MBB.negative_sharpe_ratio w0 arrival_values risk_free_rate)
        delta 10 1 w0 =
      MBB.lineSearch
        (fun v => MBB.negative_sharpe_ratio v arrival_values risk_free_rate)
        (MBB.negative_sharpe_ratio w0 arrival_values risk_free_rate)
        delta (10 - k) (1 / 2 ^ k) (MBB.attemptSeq delta w0 k) ∧
    MBB.attemptSeq delta w0 (k + 1) =
      MBB.project (List.zipWith (fun wi di => wi + 1 / 2 ^ k * di)
        (MBB.attemptSeq delta w0 k) delta) := by
  constructor
  · induction k with
    | zero => norm_num [MBB.attemptSeq]
    | succ k ih =>
      have hk' : k ≤ 10 := by omega
      rw [ih hk' (fun j hj => hfail j (by omega))]
      rw [show 10 - k = 10 - (k + 1) + 1 from by omega, lineSearch_succ,
        show MBB.lsStep delta (1 / 2 ^ k) (MBB.attemptSeq delta w0 k) =
          MBB.attemptSeq delta w0 (k + 1) from rfl,
        if_neg (hfail k (by omega))]
      rw [show (1 : ℝ) / 2 ^ k / 2 = 1 / 2 ^ (k + 1) from by
        rw [pow_succ]; ring]
  · rfl

lemma negSR_single_sim (v row : List ℝ) (rf : ℝ) :
    MBB.negative_sharpe_ratio v [row] rf = 0 := by
  simp [MBB.negative_sharpe_ratio, MBB.calculate_sharpe_ratio,
    MBB.calculate_portfolio_returns]

theorem C4_witness :
    (MBB.lineSearch (fun v => MBB.negative_sharpe_ratio v [[(1 : ℝ), 1]] 0)
        (MBB.negative_sharpe_ratio [(1 : ℝ), 1] [[(1 : ℝ), 1]] 0)
        [(0 : ℝ), 0] 10 1 [(1 : ℝ), 1] =
      MBB.lineSearch (fun v => MBB.negative_sharpe_ratio v [[(1 : ℝ), 1]] 0)
        (MBB.negative_sharpe_ratio [(1 : ℝ), 1] [[(1 : ℝ), 1]] 0)
        [(0 : ℝ), 0] (10 - 2) (1 / 2 ^ 2)
        (MBB.attemptSeq [(0 : ℝ), 0] [(1 : ℝ), 1] 2)) ∧
    MBB.attemptSeq [(0 : ℝ), 0] [(1 : ℝ), 1] 3 =
      MBB.project (List.zipWith (fun wi di => wi + 1 / 2 ^ 2 * di)
        (MBB.attemptSeq [(0 : ℝ), 0] [(1 : ℝ), 1] 2) [(0 : ℝ), 0]) :=
  C4_cumulative_backtracking [[(1 : ℝ), 1]] 0 [(0 : ℝ), 0] [(1 : ℝ), 1] 2
    (by norm_num) (fun j hj => by simp [negSR_single_sim])

/-! ## The simplex projection and the returned weights -/

lemma list_sum_map_div (l : List ℝ) (c : ℝ) :
    (l.map fun x => x / c).sum = l.sum / c := by
  induction l with
  | nil => simp
  | cons x xs ih => simp [ih, add_div]

lemma list_all_zero_of_nonneg_sum_nonpos (l : List ℝ)
    (h0 : ∀ x ∈ l, 0 ≤ x) (hs : l.sum ≤ 0) : ∀ x ∈ l, x = 0 := by
  induction l with
  | nil => simp
  | cons x xs ih =>
    intro y hy
    have hx : 0 ≤ x := h0 x (List.mem_cons_self x xs)
    have hxs : 0 ≤ xs.sum :=
      List.sum_nonneg fun z hz => h0 z (List.mem_cons_of_mem x hz)
    rw [List.sum_cons] at hs
    rcases List.mem_cons.mp hy with rfl | hy
    · linarith
    · exact ih (fun z hz => h0 z (List.mem_cons_of_mem x hz)) (by linarith) y hy

lemma project_nonneg (v : List ℝ) : ∀ x ∈ MBB.project v, 0 ≤ x := by
  intro x hx
  simp only [MBB.project] at hx
  by_cases hpos : 0 < ((v.map fun y => max y 0).sum)
  · rw [if_pos hpos] at hx
    obtain ⟨y, hy, rfl⟩ := List.mem_map.mp hx
    obtain ⟨z, -, rfl⟩ := List.mem_map.mp hy
    exact div_nonneg (le_max_right z 0) (le_of_lt hpos)
  · rw [if_neg hpos] at hx
    obtain ⟨z, -, rfl⟩ := List.mem_map.mp hx
    exact le_max_right z 0

lemma project_sum (v : List ℝ) :
    (MBB.project v).sum = 1 ∨ ∀ x ∈ MBB.project v, x = 0 := by
  by_cases hpos : 0 < ((v.map fun y => max y 0).sum)
  · left
    simp only [MBB.project, if_pos hpos]
    rw [list_sum_map_div]
    exact div_self (ne_of_gt hpos)
  · right
    intro x hx
    simp only [MBB.project, if_neg hpos] at hx
    refine list_all_zero_of_nonneg_sum_nonpos _ ?_ (not_lt.mp hpos) x hx
    intro y hy
    obtain ⟨z, -, rfl⟩ := List.mem_map.mp hy
    exact le_max_right z 0

lemma lineSearch_result_projected (f : List ℝ → ℝ) (fcur : ℝ) (delta : List ℝ) :
    ∀ fuel, 1 ≤ fuel → ∀ (alpha : ℝ) (w : List ℝ),
      ∃ v, (MBB.lineSearch f fcur delta fuel alpha w).1 = MBB.project v := by
  intro fuel
  induction fuel with
  | zero => intro h; omega
  | succ fuel ih =>
    intro _ alpha w
    rw [lineSearch_succ]
    by_cases hc : f (MBB.lsStep delta alpha w) < fcur
    · rw [if_pos hc]
      exact ⟨List.zipWith (fun wi di => wi + alpha * di) w delta, rfl⟩
    · rw [if_neg hc]
      cases fuel with
      | zero =>
        rw [lineSearch_zero]
        exact ⟨List.zipWith (fun wi di => wi + alpha * di) w delta, rfl⟩
      | succ fuel2 => exact ih (by omega) (alpha / 2) (MBB.lsStep delta alpha w)

lemma optimizeGo_result_projected (f : List ℝ → ℝ) (tol : ℝ) :
    ∀ n, 1 ≤ n → ∀ w, ∃ v, MBB.optimizeGo f tol n w = MBB.project v := by
  intro n
  induction n with
  | zero => intro h; omega
  | succ n ih =>
    intro _ w
    have hstep : MBB.optimizeGo f tol (n + 1) w =
        if (MBB.nrRound f w).2.2 < tol then (MBB.nrRound f w).1
        else MBB.optimizeGo f tol n (MBB.nrRound f w).1 := rfl
    obtain ⟨v, hv⟩ :=
      lineSearch_result_projected f (f w) (MBB.deltaAt f w) 10 (by norm_num) 1 w
    have hr1 : (MBB.nrRound f w).1 = MBB.project v := hv
    rw [hstep]
    by_cases hc : (MBB.nrRound f w).2.2 < tol
    · rw [if_pos hc]
      exact ⟨v, hr1⟩
    · rw [if_neg hc]
      cases n with
      | zero => exact ⟨v, hr1⟩
      | succ n2 => exact ih (by omega) _

/-- Claim C1, amended: for `max_iterations ≥ 1` (with `max_iterations = 0`
the loop never runs and the initial weights come back unprojected), the
returned weights always went through the line search's clamp-and-renormalize
projection, so every entry is ≥ 0 and the entries sum to 1 — except when the
final kept line-search attempt clamped every weight to 0 (the renormalization
is skipped for a nonpositive sum), in which case every entry is 0.  No
positivity of the initial sum is needed. -/
theorem C1_amended (arrival_values : List (List ℝ)) (initial_weights : List ℝ)
    (risk_free_rate tolerance : ℝ) (max_iterations : ℕ)
    (hmi : 1 ≤ max_iterations) :
    (∀ x ∈ MBB.optimize_portfolio_newton_raphson arrival_values initial_weights
        risk_free_rate max_iterations tolerance, 0 ≤ x) ∧
    ((MBB.optimize_portfolio_newton_raphson arrival_values initial_weights
        risk_free_rate max_iterations tolerance).sum = 1 ∨
      ∀ x ∈ MBB.optimize_portfolio_newton_raphson arrival_values
        initial_weights risk_free_rate max_iterations tolerance, x = 0) := by
  obtain ⟨v, hv⟩ := optimizeGo_result_projected
    (fun w => MBB.negative_sharpe_ratio w arrival_values risk_free_rate)
    tolerance max_iterations hmi initial_weights
  rw [show MBB.optimize_portfolio_newton_raphson arrival_values initial_weights
      risk_free_rate max_iterations tolerance = MBB.project v from hv]
  exact ⟨project_nonneg v, project_sum v⟩

theorem C1_amended_witness :
    (1 : ℕ) ≤ 1 ∧
      ((∀ x ∈ MBB.optimize_portfolio_newton_raphson [[(1 : ℝ), -1], [-1, -1]]
          [-1, 3] 0 1 1, 0 ≤ x) ∧
        ((MBB.optimize_portfolio_newton_raphson [[(1 : ℝ), -1], [-1, -1]]
            [-1, 3] 0 1 1).sum = 1 ∨
          ∀ x ∈ MBB.optimize_portfolio_newton_raphson [[(1 : ℝ), -1], [-1, -1]]
            [-1, 3] 0 1 1, x = 0)) :=
  ⟨le_refl 1,
    C1_amended [[(1 : ℝ), -1], [-1, -1]] [-1, 3] 0 1 1 (le_refl 1)⟩

/-! ## A closed form of the objective on the concrete two-asset matrix -/

lemma sharpe_pair (x y rf : ℝ) :
    MBB.calculate_sharpe_ratio [x, y] rf =
      if |(x - y) / 2| = 0 then 0 else ((x + y) / 2 - rf) / |(x - y) / 2| := by
  rw [MBB.calculate_sharpe_ratio,
    if_neg (by norm_num : ¬([x, y] : List ℝ).length ≤ 1)]
  simp only [List.length_cons, List.length_nil, List.sum_cons, List.sum_nil,
    List.map_cons, List.map_nil]
  rw [show ((x * x + (y * y + 0)) / ((0 : ℕ) + 1 + 1 : ℕ) -
      (x + (y + 0)) / ((0 : ℕ) + 1 + 1 : ℕ) *
        ((x + (y + 0)) / ((0 : ℕ) + 1 + 1 : ℕ)) : ℝ) =
      ((x - y) / 2) ^ 2 from by push_cast; ring]
  rw [Real.sqrt_sq_eq_abs]
  rw [show (x + (y + 0)) / ((0 : ℕ) + 1 + 1 : ℕ) = (x + y) / 2 from by
    push_cast; ring]

lemma portfolio_cex (a b : ℝ) :
    MBB.calculate_portfolio_returns [a, b] cexArrival = [a - b, -a - b] := by
  simp only [cexArrival, MBB.calculate_portfolio_returns, List.map_cons,
    List.map_nil, List.zipWith_cons_cons, List.zipWith_nil_left,
    List.sum_cons, List.sum_nil, List.cons.injEq, and_true]
  exact ⟨by ring, by ring⟩

lemma cexF_closed (a b : ℝ) :
    cexF [a, b] = if a = 0 then 0 else b / |a| := by
  have h0 : cexF [a, b] =
      -(MBB.calculate_sharpe_ratio
        (MBB.calculate_portfolio_returns [a, b] cexArrival) 0) := rfl
  rw [h0, portfolio_cex, sharpe_pair]
  rw [show (a - b - (-a - b)) / 2 = a from by ring,
    show (a - b + (-a - b)) / 2 = -b from by ring]
  by_cases ha : a = 0
  · rw [if_pos (by rw [ha]; simp), if_pos ha]
    norm_num
  · rw [if_neg (by simpa [abs_eq_zero] using ha), if_neg ha, sub_zero,
      neg_div, neg_neg]

lemma cexF_A : cexF [-1 + MBB.fd_h, 3] = 3 / (999999 / 1000000) := by
  rw [cexF_closed, if_neg (by norm_num [MBB.fd_h] : ¬(-1 + MBB.fd_h = (0 : ℝ)))]
  rw [show |(-1 + MBB.fd_h : ℝ)| = 999999 / 1000000 from by
    rw [MBB.fd_h, abs_of_neg (by norm_num)]; norm_num]

lemma cexF_B : cexF [-1 + -MBB.fd_h, 3] = 3 / (1000001 / 1000000) := by
  rw [cexF_closed, if_neg (by norm_num [MBB.fd_h] : ¬(-1 + -MBB.fd_h = (0 : ℝ)))]
  rw [show |(-1 + -MBB.fd_h : ℝ)| = 1000001 / 1000000 from by
    rw [MBB.fd_h, abs_of_neg (by norm_num)]; norm_num]

lemma cexF_C : cexF [-1, 3 + MBB.fd_h] = 3 + MBB.fd_h := by
  rw [cexF_closed, if_neg (by norm_num : ¬(-1 : ℝ) = 0)]
  rw [show |(-1 : ℝ)| = 1 from by norm_num, div_one]

lemma cexF_D : cexF [-1, 3 + -MBB.fd_h] = 3 + -MBB.fd_h := by
  rw [cexF_closed, if_neg (by norm_num : ¬(-1 : ℝ) = 0)]
  rw [show |(-1 : ℝ)| = 1 from by norm_num, div_one]

lemma cexF_E : cexF [-1, 3] = 3 := by
  rw [cexF_closed, if_neg (by norm_num : ¬(-1 : ℝ) = 0)]
  rw [show |(-1 : ℝ)| = 1 from by norm_num, div_one]

lemma cexF_Z : cexF [0, 0] = 0 := by
  rw [cexF_closed, if_pos rfl]

/-! ## Evaluating one optimizer round on the concrete matrix -/

lemma gradientAt_cex :
    MBB.gradientAt cexF [-1, 3] =
      [(cexF [-1 + MBB.fd_h, 3] - cexF [-1 + -MBB.fd_h, 3]) / (2 * MBB.fd_h),
       (cexF [-1, 3 + MBB.fd_h] - cexF [-1, 3 + -MBB.fd_h]) / (2 * MBB.fd_h)] :=
  rfl

lemma hessianDiagAt_cex :
    MBB.hessianDiagAt cexF [-1, 3] =
      [(cexF [-1 + MBB.fd_h, 3] + cexF [-1 + -MBB.fd_h, 3] - 2 * cexF [-1, 3]) /
          (MBB.fd_h * MBB.fd_h) + 1 / 1000000,
       (cexF [-1, 3 + MBB.fd_h] + cexF [-1, 3 + -MBB.fd_h] - 2 * cexF [-1, 3]) /
          (MBB.fd_h * MBB.fd_h) + 1 / 1000000] :=
  rfl

lemma deltaAt_cex :
    MBB.deltaAt cexF [-1, 3] =
      [-1000000000000000000 / 2000000333333333333, -1000000] := by
  rw [MBB.deltaAt, gradientAt_cex, hessianDiagAt_cex,
    List.zipWith_cons_cons, List.zipWith_cons_cons, List.zipWith_nil_left,
    cexF_A, cexF_B, cexF_C, cexF_D, cexF_E, MBB.fd_h]
  simp only [List.cons.injEq, and_true]
  constructor
  · norm_num
  · norm_num

lemma lsStep_cex :
    MBB.lsStep (MBB.deltaAt cexF [-1, 3]) 1 [-1, 3] = [0, 0] := by
  rw [MBB.lsStep, deltaAt_cex]
  rw [show List.zipWith (fun wi di => wi + 1 * di) ([-1, 3] : List ℝ)
        [-1000000000000000000 / 2000000333333333333, -1000000] =
      [-1 + 1 * (-1000000000000000000 / 2000000333333333333),
        3 + 1 * (-1000000 : ℝ)] from rfl]
  simp only [MBB.project, List.map_cons, List.map_nil]
  rw [max_eq_right
      (by norm_num : (-1 + 1 * (-1000000000000000000 / 2000000333333333333) : ℝ) ≤ 0),
    max_eq_right (by norm_num : (3 + 1 * (-1000000 : ℝ)) ≤ 0)]
  norm_num

lemma lineSearch_cex :
    MBB.lineSearch cexF (cexF [-1, 3]) (MBB.deltaAt cexF [-1, 3]) 10 1 [-1, 3] =
      ([0, 0], true) := by
  rw [show (10 : ℕ) = 9 + 1 from rfl, lineSearch_succ, lsStep_cex, cexF_Z, cexF_E,
    if_pos (by norm_num : (0 : ℝ) < 3)]

lemma nrRound_cex_weights : (MBB.nrRound cexF [-1, 3]).1 = [0, 0] := by
  show (MBB.lineSearch cexF (cexF [-1, 3]) (MBB.deltaAt cexF [-1, 3])
    10 1 [-1, 3]).1 = [0, 0]
  rw [lineSearch_cex]

lemma nrRound_cex_accepted : (MBB.nrRound cexF [-1, 3]).2.1 = true := by
  show (MBB.lineSearch cexF (cexF [-1, 3]) (MBB.deltaAt cexF [-1, 3])
    10 1 [-1, 3]).2 = true
  rw [lineSearch_cex]

lemma optimize_cex :
    MBB.optimize_portfolio_newton_raphson cexArrival [-1, 3] 0 1 1 = [0, 0] := by
  show MBB.optimizeGo cexF 1 1 [-1, 3] = [0, 0]
  rw [show MBB.optimizeGo cexF 1 1 [-1, 3] =
      if (MBB.nrRound cexF [-1, 3]).2.2 < 1 then (MBB.nrRound cexF [-1, 3]).1
      else MBB.optimizeGo cexF 1 0 (MBB.nrRound cexF [-1, 3]).1 from rfl]
  rw [show MBB.optimizeGo cexF 1 0 (MBB.nrRound cexF [-1, 3]).1 =
      (MBB.nrRound cexF [-1, 3]).1 from rfl]
  rw [ite_self, nrRound_cex_weights]

/-- Claim C1 is false of the code.  Two explicit runs: (a) with the
arrival-value matrix `[[1,-1],[-1,-1]]`, initial weights `[-1, 3]` (sum
`2 > 0`), risk-free rate 0, `max_iterations = 1` and tolerance 1, the single
round's Newton step drives both weights below 0, the clamp yields sum 0, the
renormalization is skipped, and the all-zero vector is accepted (its
objective 0 beats the starting objective 3) — the returned weights sum to 0,
not 1 (and 0 is not within the claimed 1e-9 tolerance of 1); (b) with
`max_iterations = 0` the initial weights `[2, -1/2]` (sum `3/2 > 0`) are
returned untouched, with a negative entry. -/
theorem C1_counterexample :
    (MBB.optimize_portfolio_newton_raphson [[(1 : ℝ), -1], [-1, -1]]
        [-1, 3] 0 1 1).sum = 0 ∧
    ¬ |(MBB.optimize_portfolio_newton_raphson [[(1 : ℝ), -1], [-1, -1]]
        [-1, 3] 0 1 1).sum - 1| ≤ 1 / 1000000000 ∧
    (0 : ℝ) < -1 + 3 ∧
    (MBB.optimize_portfolio_newton_raphson [[(1 : ℝ), -1], [-1, -1]]
        [2, -(1 / 2)] 0 0 1).getD 1 0 < 0 ∧
    (0 : ℝ) < 2 + -(1 / 2) := by
  have h1 : MBB.optimize_portfolio_newton_raphson [[(1 : ℝ), -1], [-1, -1]]
      [-1, 3] 0 1 1 = [0, 0] := optimize_cex
  have h2 : MBB.optimize_portfolio_newton_raphson [[(1 : ℝ), -1], [-1, -1]]
      [2, -(1 / 2)] 0 0 1 = [2, -(1 / 2)] := rfl
  rw [h1, h2]
  norm_num

theorem C3_witness :
    (MBB.nrRound (fun v => MBB.negative_sharpe_ratio v cexArrival 0)
        [-1, 3]).2.1 = true ∧
      MBB.negative_sharpe_ratio
          ((MBB.nrRound (fun v => MBB.negative_sharpe_ratio v cexArrival 0)
            [-1, 3]).1) cexArrival 0 ≤
        MBB.negative_sharpe_ratio [-1, 3] cexArrival 0 :=
  ⟨nrRound_cex_accepted,
    C3_accepted_round_improves cexArrival 0 [-1, 3] nrRound_cex_accepted⟩
